import Mathlib

/-!
Verification of the R1CS re-indexing core of snarky-bn382
(`src/lib.rs`: `ceil_pow2`, `witness_position_to_index`,
`index_to_witness_position`, `rows_to_csmat`, `prepare_witness`).

Machine integers (`usize`) are modelled as `Nat`; every subtraction and
division below happens in a branch where the Rust value cannot underflow
or divide by zero under the stated hypotheses, so `Nat` semantics agree
with `usize` semantics there.  Panics (a failed `assert_eq!`, or the
`panic!` on a failed `CsVecView::new_view`) are modelled by `Option`:
`none` is an abort, `some` a normal return.
-/

namespace SnarkyBn382

/-- Loop of `ceil_pow2` (`let mut res = 1; while x > res { res *= 2 }; res`),
with a fuel argument bounding the iteration count.  `ceil_pow2` passes fuel
`x`, which always suffices: the running value starts at 1 and doubles each
step, so after `k` steps it is `2 ^ k`, and `x ≤ 2 ^ x` means the guard
`x > res` fails before the fuel runs out. -/
def ceilPow2Loop : Nat → Nat → Nat → Nat
  | 0, _, res => res
  | fuel + 1, x, res => if x > res then ceilPow2Loop fuel x (2 * res) else res

/-- Embedding of `fn ceil_pow2(x: usize) -> usize` (src/lib.rs lines 40-46). -/
def ceil_pow2 (x : Nat) : Nat :=
  ceilPow2Loop x x 1

/-- Embedding of `fn witness_position_to_index(public_inputs, h_to_x_ratio, w)`
(src/lib.rs lines 48-60). -/
def witness_position_to_index (public_inputs h_to_x_ratio w : Nat) : Nat :=
  if w % h_to_x_ratio = 0 then
    w / h_to_x_ratio
  else
    let m := h_to_x_ratio - 1
    let aux_index_mod_m := (w - 1) % h_to_x_ratio
    let aux_index_over_m := ((w - 1) - aux_index_mod_m) / h_to_x_ratio
    let aux_index := aux_index_mod_m + m * aux_index_over_m
    aux_index + public_inputs

/-- The value `res` computed by `index_to_witness_position` before its
round-trip assertion (src/lib.rs lines 63-82). -/
def index_to_witness_position_value (public_inputs h_to_x_ratio i : Nat) : Nat :=
  if i < public_inputs then
    i * h_to_x_ratio
  else
    let m := h_to_x_ratio - 1
    let aux_index := i - public_inputs
    let block := aux_index / m
    let intra_block := aux_index % m
    h_to_x_ratio * block + 1 + intra_block

/-- Embedding of `fn index_to_witness_position(public_inputs, h_to_x_ratio, i)`
(src/lib.rs lines 62-85): computes `res` and runs
`assert_eq!(witness_position_to_index(public_inputs, h_to_x_ratio, res), i)`;
`none` models the panic of a failed assertion. -/
def index_to_witness_position (public_inputs h_to_x_ratio i : Nat) : Option Nat :=
  let res := index_to_witness_position_value public_inputs h_to_x_ratio i
  if witness_position_to_index public_inputs h_to_x_ratio res = i then some res
  else none

/-- The public-input branch of the mapping: for `i < public_inputs` the
computed position is `i * h_to_x_ratio`, and mapping it back yields `i`. -/
lemma witness_position_round_public (public_inputs h_to_x_ratio i : Nat)
    (hr : 2 ≤ h_to_x_ratio) (hi : i < public_inputs) :
    witness_position_to_index public_inputs h_to_x_ratio
      (index_to_witness_position_value public_inputs h_to_x_ratio i) = i := by
  have hrpos : 0 < h_to_x_ratio := by omega
  unfold index_to_witness_position_value witness_position_to_index
  rw [if_pos hi, if_pos (Nat.mul_mod_left i h_to_x_ratio)]
  exact Nat.mul_div_cancel i hrpos

/-- The inverse applied to a position of the form `r * b + 1 + t` with
`t < r - 1` recovers the auxiliary index `t + (r - 1) * b` shifted by
`public_inputs`. -/
lemma witness_position_to_index_aux_form (public_inputs r b t : Nat)
    (hr : 2 ≤ r) (ht : t < r - 1) :
    witness_position_to_index public_inputs r (r * b + 1 + t)
      = t + (r - 1) * b + public_inputs := by
  have hrpos : 0 < r := by omega
  have hmod0 : (r * b + 1 + t) % r = 1 + t := by
    have h1 : r * b + 1 + t = 1 + t + b * r := by ring
    rw [h1, Nat.add_mul_mod_self_right]
    exact Nat.mod_eq_of_lt (by omega)
  simp only [witness_position_to_index]
  rw [if_neg (by omega)]
  have e1 : r * b + 1 + t - 1 = t + r * b := by omega
  rw [e1]
  have e2 : (t + r * b) % r = t := by
    rw [Nat.add_mul_mod_self_left]
    exact Nat.mod_eq_of_lt (by omega)
  rw [e2]
  have e3 : t + r * b - t = r * b := by omega
  rw [e3]
  have e4 : r * b / r = b := by
    rw [Nat.mul_comm]
    exact Nat.mul_div_cancel b hrpos
  rw [e4]

/-- The auxiliary branch of the mapping: for `public_inputs ≤ i` the computed
position is `h_to_x_ratio * block + 1 + intra_block`, and mapping it back
yields `i`. -/
lemma witness_position_round_aux (public_inputs h_to_x_ratio i : Nat)
    (hr : 2 ≤ h_to_x_ratio) (hi : public_inputs ≤ i) :
    witness_position_to_index public_inputs h_to_x_ratio
      (index_to_witness_position_value public_inputs h_to_x_ratio i) = i := by
  have hmpos : 0 < h_to_x_ratio - 1 := by omega
  have hvalue : index_to_witness_position_value public_inputs h_to_x_ratio i
      = h_to_x_ratio * ((i - public_inputs) / (h_to_x_ratio - 1)) + 1 +
        (i - public_inputs) % (h_to_x_ratio - 1) := by
    simp only [index_to_witness_position_value]
    rw [if_neg (by omega)]
  rw [hvalue, witness_position_to_index_aux_form public_inputs h_to_x_ratio _ _ hr
    (Nat.mod_lt _ hmpos)]
  have := Nat.div_add_mod (i - public_inputs) (h_to_x_ratio - 1)
  omega

/-- The round-trip assertion of `index_to_witness_position` holds whenever
the ratio is at least 2. -/
lemma witness_position_round (public_inputs h_to_x_ratio i : Nat)
    (hr : 2 ≤ h_to_x_ratio) :
    witness_position_to_index public_inputs h_to_x_ratio
      (index_to_witness_position_value public_inputs h_to_x_ratio i) = i := by
  by_cases hi : i < public_inputs
  · exact witness_position_round_public public_inputs h_to_x_ratio i hr hi
  · exact witness_position_round_aux public_inputs h_to_x_ratio i hr (by omega)

/-- For ratio at least 2 the assertion inside `index_to_witness_position`
passes, so the function returns the computed position. -/
lemma index_to_witness_position_eq_some (public_inputs h_to_x_ratio i : Nat)
    (hr : 2 ≤ h_to_x_ratio) :
    index_to_witness_position public_inputs h_to_x_ratio i
      = some (index_to_witness_position_value public_inputs h_to_x_ratio i) := by
  unfold index_to_witness_position
  rw [if_pos (witness_position_round public_inputs h_to_x_ratio i hr)]

/-- C1: for every `public_inputs`, every `ratio ≥ 2` and every flat index
`i`, `index_to_witness_position` returns a position (its internal
round-trip assertion succeeds) and `witness_position_to_index` maps that
position back to `i`. -/
theorem index_to_witness_position_round_trip (public_inputs h_to_x_ratio i : Nat)
    (hr : 2 ≤ h_to_x_ratio) :
    ∃ w, index_to_witness_position public_inputs h_to_x_ratio i = some w ∧
      witness_position_to_index public_inputs h_to_x_ratio w = i :=
  ⟨index_to_witness_position_value public_inputs h_to_x_ratio i,
    index_to_witness_position_eq_some public_inputs h_to_x_ratio i hr,
    witness_position_round public_inputs h_to_x_ratio i hr⟩

/-- Witness for C1 at `public_inputs = 3`, `ratio = 4`, `i = 7`. -/
theorem index_to_witness_position_round_trip_witness :
    ∃ w, index_to_witness_position 3 4 7 = some w ∧
      witness_position_to_index 3 4 w = 7 :=
  index_to_witness_position_round_trip 3 4 7 (by decide)

/-- C4: with `ratio = 4` and `public_inputs = 3`, the mapper sends flat
indices 0, 1, 2 to positions 0, 4, 8, flat indices 3, 4, 5 to positions
1, 2, 3, and flat indices 6, 7, 8 to positions 5, 6, 7. -/
theorem index_to_witness_position_block_partition :
    index_to_witness_position 3 4 0 = some 0 ∧
    index_to_witness_position 3 4 1 = some 4 ∧
    index_to_witness_position 3 4 2 = some 8 ∧
    index_to_witness_position 3 4 3 = some 1 ∧
    index_to_witness_position 3 4 4 = some 2 ∧
    index_to_witness_position 3 4 5 = some 3 ∧
    index_to_witness_position 3 4 6 = some 5 ∧
    index_to_witness_position 3 4 7 = some 6 ∧
    index_to_witness_position 3 4 8 = some 7 := by
  decide

/-- Any run of the `ceil_pow2` loop returns at least `x`, provided the fuel
would let the running value reach `x` by doubling. -/
lemma ceilPow2Loop_le (fuel : Nat) : ∀ x res : Nat, x ≤ 2 ^ fuel * res →
    x ≤ ceilPow2Loop fuel x res := by
  induction fuel with
  | zero => intro x res h; simpa using h
  | succ n ih =>
      intro x res h
      unfold ceilPow2Loop
      by_cases hlt : x > res
      · rw [if_pos hlt]
        refine ih x (2 * res) ?_
        calc x ≤ 2 ^ (n + 1) * res := h
          _ = 2 ^ n * (2 * res) := by ring
      · rw [if_neg hlt]; omega

/-- Any run of the `ceil_pow2` loop returns `2 ^ k * res` for some `k`. -/
lemma ceilPow2Loop_pow (fuel : Nat) : ∀ x res : Nat,
    ∃ k, ceilPow2Loop fuel x res = 2 ^ k * res := by
  induction fuel with
  | zero => intro x res; exact ⟨0, by simp [ceilPow2Loop]⟩
  | succ n ih =>
      intro x res
      unfold ceilPow2Loop
      by_cases hlt : x > res
      · rw [if_pos hlt]
        obtain ⟨k, hk⟩ := ih x (2 * res)
        exact ⟨k + 1, by rw [hk]; ring⟩
      · rw [if_neg hlt]; exact ⟨0, by simp⟩

/-- Minimality of the `ceil_pow2` loop: its result never exceeds a bound of
the form `2 ^ t * res` that already reaches `x`. -/
lemma ceilPow2Loop_min (fuel : Nat) : ∀ x res t : Nat, x ≤ 2 ^ t * res →
    ceilPow2Loop fuel x res ≤ 2 ^ t * res := by
  induction fuel with
  | zero =>
      intro x res t _
      have : 0 < 2 ^ t := Nat.pos_pow_of_pos t (by omega)
      simpa [ceilPow2Loop] using Nat.le_mul_of_pos_left res this
  | succ n ih =>
      intro x res t h
      unfold ceilPow2Loop
      by_cases hlt : x > res
      · rw [if_pos hlt]
        cases t with
        | zero => simp at h; omega
        | succ t' =>
            have h' : x ≤ 2 ^ t' * (2 * res) := by
              calc x ≤ 2 ^ (t' + 1) * res := h
                _ = 2 ^ t' * (2 * res) := by ring
            calc ceilPow2Loop n x (2 * res) ≤ 2 ^ t' * (2 * res) := ih x (2 * res) t' h'
              _ = 2 ^ (t' + 1) * res := by ring
      · rw [if_neg hlt]
        have : 0 < 2 ^ t := Nat.pos_pow_of_pos t (by omega)
        exact le_trans (by omega) (Nat.le_mul_of_pos_left res this)

/-- `ceil_pow2` dominates its argument. -/
lemma ceil_pow2_ge (x : Nat) : x ≤ ceil_pow2 x := by
  refine ceilPow2Loop_le x x 1 ?_
  have := Nat.lt_two_pow x
  omega

/-- C7: for every positive `n`, `ceil_pow2 n` is a power of two, is at least
`n`, and is the smallest power of two with that property. -/
theorem ceil_pow2_spec (n : Nat) (h : 0 < n) :
    n ≤ ceil_pow2 n ∧ (∃ k, ceil_pow2 n = 2 ^ k) ∧
      ∀ k, n ≤ 2 ^ k → ceil_pow2 n ≤ 2 ^ k := by
  refine ⟨ceil_pow2_ge n, ?_, ?_⟩
  · obtain ⟨k, hk⟩ := ceilPow2Loop_pow n n 1
    exact ⟨k, by simpa using hk⟩
  · intro k hk
    have := ceilPow2Loop_min n n 1 k (by omega)
    simpa using this

/-- Witness for C7 at `n = 5`. -/
theorem ceil_pow2_spec_witness :
    0 < 5 ∧ (5 ≤ ceil_pow2 5 ∧ (∃ k, ceil_pow2 5 = 2 ^ k) ∧
      ∀ k, 5 ≤ 2 ^ k → ceil_pow2 5 ≤ 2 ^ k) :=
  ⟨by decide, ceil_pow2_spec 5 (by decide)⟩

/-! ### Witness Assembler (`prepare_witness`, src/lib.rs lines 129-151) -/

/-- Position written for the i-th element of `primary_input` by
`prepare_witness` (`let i = 1 + i; witness[i * ratio] = *x`, lines 137-140). -/
def publicWritePosition (ratio i : Nat) : Nat :=
  (1 + i) * ratio

/-- Position written for the i-th element of `auxiliary_input` by
`prepare_witness` (`witness[ratio * block + 1 + intra_block] = w`, with
`block = i / m`, `intra_block = i % m`, `m = ratio - 1`, lines 142-148). -/
def auxWritePosition (ratio i : Nat) : Nat :=
  ratio * (i / (ratio - 1)) + 1 + i % (ratio - 1)

/-- Embedding of `fn prepare_witness(domains, primary_input, auxiliary_input)`
(src/lib.rs lines 129-151).  The evaluation domains are represented by
their sizes `h_size = domains.h.size()` and `x_size = domains.x.size()`;
the field is abstracted to a type with distinguished `0` and `1`. -/
def prepare_witness (F : Type) [Zero F] [One F] (h_size x_size : Nat)
    (primary_input auxiliary_input : List F) : List F :=
  let ratio := h_size / x_size
  let witness := (List.replicate h_size (0 : F)).set 0 1
  let witness := primary_input.enum.foldl
    (fun w ix => w.set (publicWritePosition ratio ix.1) ix.2) witness
  auxiliary_input.enum.foldl
    (fun w iw => w.set (auxWritePosition ratio iw.1) iw.2) witness

/-- A fold of writes does not change the vector's length. -/
lemma length_foldl_set {α F : Type} (f : α → Nat) (g : α → F) (l : List α)
    (w : List F) :
    (l.foldl (fun w a => w.set (f a) (g a)) w).length = w.length := by
  induction l generalizing w with
  | nil => rfl
  | cons a t ih => simp [List.foldl_cons, ih]

/-- A fold of writes leaves every position untouched that none of the
writes targets. -/
lemma getElem?_foldl_set_of_ne {α F : Type} (f : α → Nat) (g : α → F)
    (l : List α) (w : List F) (p : Nat) (h : ∀ a ∈ l, f a ≠ p) :
    (l.foldl (fun w a => w.set (f a) (g a)) w)[p]? = w[p]? := by
  induction l generalizing w with
  | nil => rfl
  | cons a t ih =>
      simp only [List.foldl_cons]
      rw [ih _ fun b hb => h b (List.mem_cons_of_mem a hb)]
      exact List.getElem?_set_ne (h a (List.mem_cons_self a t))

/-- When the write positions are pairwise distinct and the position of a
write is in range, a fold of writes stores exactly the written value there. -/
lemma getElem?_foldl_set_of_mem {α F : Type} (f : α → Nat) (g : α → F)
    (l : List α) (w : List F) (a : α) (ha : a ∈ l) (hnd : (l.map f).Nodup)
    (hlt : f a < w.length) :
    (l.foldl (fun w b => w.set (f b) (g b)) w)[f a]? = some (g a) := by
  induction l generalizing w with
  | nil => cases ha
  | cons b t ih =>
      simp only [List.map_cons, List.nodup_cons] at hnd
      simp only [List.foldl_cons]
      rcases List.mem_cons.mp ha with rfl | hat
      · have hne : ∀ c ∈ t, f c ≠ f a := by
          intro c hc hEq
          exact hnd.1 (hEq ▸ List.mem_map_of_mem f hc)
        rw [getElem?_foldl_set_of_ne f g t _ _ hne]
        exact List.getElem?_set_self (by simpa using hlt)
      · exact ih _ hat hnd.2 (by simpa using hlt)

/-- The remainder of an auxiliary write position modulo the ratio is
`1 + i % (ratio - 1)`, in particular nonzero. -/
lemma auxWritePosition_mod (r i : Nat) (hr : 2 ≤ r) :
    auxWritePosition r i % r = 1 + i % (r - 1) := by
  have ht : i % (r - 1) < r - 1 := Nat.mod_lt i (by omega)
  unfold auxWritePosition
  have h1 : r * (i / (r - 1)) + 1 + i % (r - 1)
      = 1 + i % (r - 1) + i / (r - 1) * r := by ring
  rw [h1, Nat.add_mul_mod_self_right]
  exact Nat.mod_eq_of_lt (by omega)

/-- The quotient of an auxiliary write position by the ratio is
`i / (ratio - 1)`. -/
lemma auxWritePosition_div (r i : Nat) (hr : 2 ≤ r) :
    auxWritePosition r i / r = i / (r - 1) := by
  have ht : i % (r - 1) < r - 1 := Nat.mod_lt i (by omega)
  unfold auxWritePosition
  have h1 : r * (i / (r - 1)) + 1 + i % (r - 1)
      = r * (i / (r - 1)) + (1 + i % (r - 1)) := by ring
  rw [h1, Nat.mul_add_div (by omega),
    Nat.div_eq_of_lt (show 1 + i % (r - 1) < r by omega)]
  omega

/-- Auxiliary write positions are pairwise distinct. -/
lemma auxWritePosition_injective (r : Nat) (hr : 2 ≤ r) :
    Function.Injective (auxWritePosition r) := by
  intro i j hEq
  have hmod : 1 + i % (r - 1) = 1 + j % (r - 1) := by
    rw [← auxWritePosition_mod r i hr, ← auxWritePosition_mod r j hr, hEq]
  have hdiv : i / (r - 1) = j / (r - 1) := by
    rw [← auxWritePosition_div r i hr, ← auxWritePosition_div r j hr, hEq]
  have hi := Nat.div_add_mod i (r - 1)
  have hj := Nat.div_add_mod j (r - 1)
  have : (r - 1) * (i / (r - 1)) = (r - 1) * (j / (r - 1)) := by rw [hdiv]
  omega

/-- An auxiliary write position never coincides with a public write
position. -/
lemma auxWritePosition_ne_public (r i j : Nat) (hr : 2 ≤ r) :
    auxWritePosition r i ≠ publicWritePosition r j := by
  intro hEq
  have hmod := auxWritePosition_mod r i hr
  have hpub : publicWritePosition r j % r = 0 := by
    unfold publicWritePosition
    exact Nat.mul_mod_left (1 + j) r
  rw [hEq, hpub] at hmod
  omega

/-- Public write positions are pairwise distinct. -/
lemma publicWritePosition_injective (r : Nat) (hr : 2 ≤ r) :
    Function.Injective (publicWritePosition r) := by
  intro i j hEq
  unfold publicWritePosition at hEq
  have := Nat.eq_of_mul_eq_mul_right (show 0 < r by omega) hEq
  omega

/-- C9: for every `ratio ≥ 2` and every auxiliary index `i`, the position
written by the auxiliary loop of `prepare_witness` is not a multiple of the
ratio, is not the constant slot 0, and differs from every public write
position, so the constant/public slots and the auxiliary slots are
disjoint. -/
theorem aux_write_position_disjoint (r i : Nat) (hr : 2 ≤ r) :
    auxWritePosition r i % r ≠ 0 ∧ auxWritePosition r i ≠ 0 ∧
      ∀ j, auxWritePosition r i ≠ publicWritePosition r j := by
  refine ⟨?_, ?_, fun j => auxWritePosition_ne_public r i j hr⟩
  · have := auxWritePosition_mod r i hr
    omega
  · unfold auxWritePosition
    omega

/-- Witness for C9 at `ratio = 4`, `i = 5`. -/
theorem aux_write_position_disjoint_witness :
    auxWritePosition 4 5 % 4 ≠ 0 ∧ auxWritePosition 4 5 ≠ 0 ∧
      ∀ j, auxWritePosition 4 5 ≠ publicWritePosition 4 j :=
  aux_write_position_disjoint 4 5 (by decide)

/-- The pair `(i, l.get i)` occurs in `l.enum`. -/
lemma mem_enum_of_lt {F : Type} (l : List F) (i : Nat) (hi : i < l.length) :
    (i, l.get ⟨i, hi⟩) ∈ l.enum := by
  have h2 : l.enum[i]? = some (i, l.get ⟨i, hi⟩) := by
    rw [List.enum_eq_enumFrom, List.getElem?_enumFrom,
      List.getElem?_eq_getElem hi]
    simp
  exact List.getElem?_mem h2

/-- Every auxiliary write position is nonzero. -/
lemma auxWritePosition_pos (r i : Nat) : 1 ≤ auxWritePosition r i := by
  unfold auxWritePosition
  have h1 : 1 ≤ r * (i / (r - 1)) + 1 := Nat.succ_le_succ (Nat.zero_le _)
  exact le_trans h1 (Nat.le_add_right _ _)

/-- Mapping an injective position function over the indices of `l.enum`
yields pairwise distinct positions. -/
lemma enum_map_pos_nodup {F : Type} (pos : Nat → Nat)
    (hinj : Function.Injective pos) (l : List F) :
    (l.enum.map fun ix => pos ix.1).Nodup := by
  have h1 : (l.enum.map fun ix => pos ix.1) = (l.enum.map Prod.fst).map pos := by
    rw [List.map_map]; rfl
  rw [h1, List.enum_eq_enumFrom, List.enumFrom_map_fst]
  exact List.Nodup.map hinj (List.nodup_range' 0 l.length)

/-- In the public branch the computed position is `i * ratio`. -/
lemma index_value_public (public_inputs r i : Nat) (hi : i < public_inputs) :
    index_to_witness_position_value public_inputs r i = i * r := by
  unfold index_to_witness_position_value
  rw [if_pos hi]

/-- In the auxiliary branch the computed position is the auxiliary write
position of `prepare_witness` for the auxiliary index `i - public_inputs`. -/
lemma index_value_aux (public_inputs r i : Nat) (hi : public_inputs ≤ i) :
    index_to_witness_position_value public_inputs r i
      = auxWritePosition r (i - public_inputs) := by
  simp only [index_to_witness_position_value, auxWritePosition]
  rw [if_neg (by omega)]

/-- C8: for every valid input (ratio at least 2, all write positions in
range), position 0 of the vector built by `prepare_witness` is the
multiplicative identity: no public or auxiliary write targets position 0. -/
theorem prepare_witness_constant_slot (F : Type) [Zero F] [One F]
    (h_size x_size : Nat) (primary auxiliary : List F)
    (hr : 2 ≤ h_size / x_size)
    (hpub : ∀ i, i < primary.length →
      publicWritePosition (h_size / x_size) i < h_size)
    (haux : ∀ i, i < auxiliary.length →
      auxWritePosition (h_size / x_size) i < h_size) :
    (prepare_witness F h_size x_size primary auxiliary)[0]? = some (1 : F) := by
  have hs2 : 2 ≤ h_size := le_trans hr (Nat.div_le_self h_size x_size)
  simp only [prepare_witness]
  rw [getElem?_foldl_set_of_ne (fun iw : Nat × F => auxWritePosition (h_size / x_size) iw.1)
    (fun iw : Nat × F => iw.2) auxiliary.enum _ 0
    (fun iw _ => by
      show auxWritePosition (h_size / x_size) iw.1 ≠ 0
      have := auxWritePosition_pos (h_size / x_size) iw.1
      omega)]
  rw [getElem?_foldl_set_of_ne (fun ix : Nat × F => publicWritePosition (h_size / x_size) ix.1)
    (fun ix : Nat × F => ix.2) primary.enum _ 0
    (fun ix _ => by
      show publicWritePosition (h_size / x_size) ix.1 ≠ 0
      have hpos : 0 < publicWritePosition (h_size / x_size) ix.1 :=
        Nat.mul_pos (by omega) (by omega)
      omega)]
  exact List.getElem?_set_self (by simpa using by omega)

/-- C2: with `public_inputs = primary.length + 1` (the constant slot plus
the declared public inputs) and ratio `h_size / x_size ≥ 2`,
`prepare_witness` stores the i-th public input exactly at the position
`index_to_witness_position` computes for flat index `1 + i`, and the i-th
auxiliary input exactly at the position it computes for flat index
`public_inputs + i`. -/
theorem prepare_witness_layout_agreement (F : Type) [Zero F] [One F]
    (h_size x_size : Nat) (primary auxiliary : List F)
    (hr : 2 ≤ h_size / x_size) :
    (∀ i, i < primary.length →
      publicWritePosition (h_size / x_size) i < h_size →
      index_to_witness_position (primary.length + 1) (h_size / x_size) (1 + i)
          = some (publicWritePosition (h_size / x_size) i) ∧
        (prepare_witness F h_size x_size primary
            auxiliary)[publicWritePosition (h_size / x_size) i]?
          = primary[i]?) ∧
    (∀ i, i < auxiliary.length →
      auxWritePosition (h_size / x_size) i < h_size →
      index_to_witness_position (primary.length + 1) (h_size / x_size)
            (primary.length + 1 + i)
          = some (auxWritePosition (h_size / x_size) i) ∧
        (prepare_witness F h_size x_size primary
            auxiliary)[auxWritePosition (h_size / x_size) i]?
          = auxiliary[i]?) := by
  constructor
  · intro i hi hb
    constructor
    · rw [index_to_witness_position_eq_some _ _ _ hr,
        index_value_public (primary.length + 1) (h_size / x_size) (1 + i) (by omega)]
      rfl
    · simp only [prepare_witness]
      rw [getElem?_foldl_set_of_ne
        (fun iw : Nat × F => auxWritePosition (h_size / x_size) iw.1)
        (fun iw : Nat × F => iw.2) auxiliary.enum _ _
        (fun iw _ => auxWritePosition_ne_public (h_size / x_size) iw.1 i hr)]
      have h2 := getElem?_foldl_set_of_mem
        (fun ix : Nat × F => publicWritePosition (h_size / x_size) ix.1)
        (fun ix : Nat × F => ix.2) primary.enum
        ((List.replicate h_size (0 : F)).set 0 1) (i, primary.get ⟨i, hi⟩)
        (mem_enum_of_lt primary i hi)
        (enum_map_pos_nodup (publicWritePosition (h_size / x_size))
          (publicWritePosition_injective (h_size / x_size) hr) primary)
        (by simpa using hb)
      rw [List.getElem?_eq_getElem hi]
      exact h2
  · intro i hi hb
    constructor
    · rw [index_to_witness_position_eq_some _ _ _ hr,
        index_value_aux (primary.length + 1) (h_size / x_size)
          (primary.length + 1 + i) (by omega)]
      have : primary.length + 1 + i - (primary.length + 1) = i := by omega
      rw [this]
    · simp only [prepare_witness]
      have h2 := getElem?_foldl_set_of_mem
        (fun iw : Nat × F => auxWritePosition (h_size / x_size) iw.1)
        (fun iw : Nat × F => iw.2) auxiliary.enum
        (primary.enum.foldl
          (fun w ix => w.set (publicWritePosition (h_size / x_size) ix.1) ix.2)
          ((List.replicate h_size (0 : F)).set 0 1))
        (i, auxiliary.get ⟨i, hi⟩)
        (mem_enum_of_lt auxiliary i hi)
        (enum_map_pos_nodup (auxWritePosition (h_size / x_size))
          (auxWritePosition_injective (h_size / x_size) hr) auxiliary)
        (by
          rw [length_foldl_set]
          simpa using hb)
      rw [List.getElem?_eq_getElem hi]
      exact h2

/-- Witness for C8 at `h_size = 16`, `x_size = 4`, two public and three
auxiliary inputs over the integers. -/
theorem prepare_witness_constant_slot_witness :
    (prepare_witness Int 16 4 [5, 7] [11, 13, 17])[0]? = some (1 : Int) :=
  prepare_witness_constant_slot Int 16 4 [5, 7] [11, 13, 17] (by decide)
    (by decide) (by decide)

/-- Witness for C2 at `h_size = 16`, `x_size = 4`: the second public input
(flat index 2) and the first auxiliary input (flat index 3) land at the
positions the index mapper computes. -/
theorem prepare_witness_layout_agreement_witness :
    (index_to_witness_position 3 4 (1 + 1) = some (publicWritePosition (16 / 4) 1) ∧
      (prepare_witness Int 16 4 [5, 7]
          [11, 13, 17])[publicWritePosition (16 / 4) 1]?
        = ([5, 7] : List Int)[1]?) ∧
    (index_to_witness_position 3 4 (3 + 0) = some (auxWritePosition (16 / 4) 0) ∧
      (prepare_witness Int 16 4 [5, 7]
          [11, 13, 17])[auxWritePosition (16 / 4) 0]?
        = ([11, 13, 17] : List Int)[0]?) :=
  ⟨(prepare_witness_layout_agreement Int 16 4 [5, 7] [11, 13, 17]
      (by decide)).1 1 (by decide) (by decide),
    (prepare_witness_layout_agreement Int 16 4 [5, 7] [11, 13, 17]
      (by decide)).2 0 (by decide) (by decide)⟩

/-! ### Constraint Matrix Builder (`rows_to_csmat`, src/lib.rs lines 87-127)

The sparse-matrix type and its row constructor come from the external
`sprs` crate, which is not part of this repository; those two pieces are
modelled from the spec below.  Everything else follows the source. -/

/-- A compressed-row sparse matrix: the fixed column count and, for every
row, the list of (column, coefficient) pairs of its non-zero entries (the
row-major storage of `sprs::CsMat` in `CSR` mode). -/
structure CsMat (F : Type) where
  cols : Nat
  rows : List (List (Nat × F))
deriving DecidableEq

/-- Executable test that a list of column indices is strictly increasing. -/
def strictlySorted : List Nat → Bool
  | [] => true
  | [_] => true
  | a :: b :: t => decide (a < b) && strictlySorted (b :: t)

/-- Modelled from the spec: `sprs::CsVecView::<F>::new_view(dim, indices,
data)` (a constructor of the external `sprs` crate, absent from this
repository) succeeds exactly when the index list is strictly increasing,
every index is below `dim`, and the index and data lists have equal
length; the resulting sparse vector pairs each index with its datum.
Here `none` models `Err`, on which `rows_to_csmat` panics. -/
def new_view (F : Type) (dim : Nat) (indices : List Nat) (data : List F) :
    Option (List (Nat × F)) :=
  if strictlySorted indices ∧ (∀ i ∈ indices, i < dim) ∧
      indices.length = data.length then
    some (indices.zip data)
  else none

/-- The executable strictness test agrees with `List.Chain'`. -/
lemma strictlySorted_iff_chain' :
    ∀ l : List Nat, strictlySorted l = true ↔ List.Chain' (· < ·) l
  | [] => by simp [strictlySorted]
  | [a] => by simp [strictlySorted]
  | a :: b :: t => by
      simp [strictlySorted, List.chain'_cons, strictlySorted_iff_chain' (b :: t),
        Bool.and_eq_true, decide_eq_true_iff, and_comm]

/-- Effectful map over `Option`: apply `f` to every element in order,
aborting on the first failure. -/
def mapOption {α β : Type} (f : α → Option β) : List α → Option (List β)
  | [] => some []
  | a :: t => (f a).bind fun b => (mapOption f t).map fun bs => b :: bs

/-- Insert a pair into a list sorted by first component, going in front of
any later element whose key is not smaller (so the sort below is stable,
as Rust's `sort_by` on `i.cmp(j)` is). -/
def insertByFst {F : Type} (a : Nat × F) : List (Nat × F) → List (Nat × F)
  | [] => [a]
  | b :: t => if a.1 ≤ b.1 then a :: b :: t else b :: insertByFst a t

/-- Stable sort by first component, modelling
`shifted.sort_by(|(i, _), (j, _)| i.cmp(j))` (src/lib.rs line 108). -/
def sortByFst {F : Type} : List (Nat × F) → List (Nat × F)
  | [] => []
  | a :: t => insertByFst a (sortByFst t)

/-- Re-indexing of one row (src/lib.rs lines 100-111): map each flat index
through `index_to_witness_position`, pair it with its coefficient (the zip
truncates to the shorter list, as the Rust iterator zip does), and sort
the pairs by domain position. -/
def shiftRow {F : Type} (public_inputs h_to_x_ratio : Nat)
    (row : List Nat × List F) : Option (List (Nat × F)) :=
  (mapOption (fun pr =>
      (index_to_witness_position public_inputs h_to_x_ratio pr.1).map
        fun w => (w, pr.2))
    (row.1.zip row.2)).map sortByFst

/-- Embedding of `fn rows_to_csmat(public_inputs, h_to_x_ratio, v)`
(src/lib.rs lines 87-127): re-index and sort every input row, push it
through `new_view`, then append empty rows up to the next power of two;
`none` models the panics (a failed assertion inside the index mapper, or
`Err` from `new_view`). -/
def rows_to_csmat (F : Type) (public_inputs h_to_x_ratio : Nat)
    (v : List (List Nat × List F)) : Option (CsMat F) :=
  let constraints := ceil_pow2 v.length
  (mapOption (fun row =>
      (shiftRow public_inputs h_to_x_ratio row).bind fun shifted =>
        new_view F constraints (shifted.map Prod.fst) (shifted.map Prod.snd))
    v).bind fun mainRows =>
  (mapOption (fun _ => new_view F constraints [] [])
      (List.range (constraints - v.length))).map fun padRows =>
  { cols := constraints, rows := mainRows ++ padRows }

/-- A successful `mapOption` yields a list of the same length. -/
lemma mapOption_some_length {α β : Type} (f : α → Option β) :
    ∀ (l : List α) (l' : List β), mapOption f l = some l' →
      l'.length = l.length := by
  intro l
  induction l with
  | nil => intro l' h; cases h; rfl
  | cons a t ih =>
      intro l' h
      unfold mapOption at h
      cases hfa : f a with
      | none => rw [hfa] at h; cases h
      | some b =>
          rw [hfa] at h
          cases hmt : mapOption f t with
          | none => rw [hmt] at h; cases h
          | some bs =>
              rw [hmt] at h
              cases h
              simp [ih bs hmt]

/-- Entry `j` of a successful `mapOption` is `f` applied to entry `j` of
the input. -/
lemma mapOption_getElem? {α β : Type} (f : α → Option β) :
    ∀ (l : List α) (l' : List β), mapOption f l = some l' →
      ∀ j : Nat, l'[j]? = (l[j]?).bind f := by
  intro l
  induction l with
  | nil => intro l' h j; cases h; simp
  | cons a t ih =>
      intro l' h j
      unfold mapOption at h
      cases hfa : f a with
      | none => rw [hfa] at h; cases h
      | some b =>
          rw [hfa] at h
          cases hmt : mapOption f t with
          | none => rw [hmt] at h; cases h
          | some bs =>
              rw [hmt] at h
              cases h
              cases j with
              | zero => simp [hfa]
              | succ j' => simpa using ih bs hmt j'

/-- If `f` fails on some element of the list, `mapOption` fails. -/
lemma mapOption_eq_none_of_mem {α β : Type} (f : α → Option β) (a : α) :
    ∀ (l : List α), a ∈ l → f a = none → mapOption f l = none := by
  intro l
  induction l with
  | nil => intro h; cases h
  | cons b t ih =>
      intro hmem hfa
      unfold mapOption
      rcases List.mem_cons.mp hmem with rfl | hat
      · rw [hfa]; rfl
      · cases hfb : f b with
        | none => rfl
        | some c => rw [ih hat hfa]; rfl

/-- Every element of a successful `mapOption` output is the image of some
input element. -/
lemma mapOption_mem {α β : Type} (f : α → Option β) :
    ∀ (l : List α) (l' : List β), mapOption f l = some l' →
      ∀ b ∈ l', ∃ a ∈ l, f a = some b := by
  intro l
  induction l with
  | nil => intro l' h b hb; cases h; cases hb
  | cons a t ih =>
      intro l' h b hb
      unfold mapOption at h
      cases hfa : f a with
      | none => rw [hfa] at h; cases h
      | some c =>
          rw [hfa] at h
          cases hmt : mapOption f t with
          | none => rw [hmt] at h; cases h
          | some bs =>
              rw [hmt] at h
              cases h
              rcases List.mem_cons.mp hb with rfl | hbs
              · exact ⟨a, List.mem_cons_self a t, hfa⟩
              · obtain ⟨a', ha', hfa'⟩ := ih bs hmt b hbs
                exact ⟨a', List.mem_cons_of_mem a ha', hfa'⟩

/-- Mapping a constant success over a list yields a replicated list. -/
lemma mapOption_const {α β : Type} (c : β) :
    ∀ l : List α, mapOption (fun _ => some c) l
      = some (List.replicate l.length c) := by
  intro l
  induction l with
  | nil => rfl
  | cons a t ih => simp [mapOption, ih, List.replicate_succ]

/-- An empty sparse row always passes the `new_view` checks. -/
lemma new_view_nil (F : Type) (dim : Nat) :
    new_view F dim [] [] = some [] := by
  simp [new_view, strictlySorted]

/-- Feeding the unzipped components of a pair list back to `new_view`
returns that pair list when the checks pass. -/
lemma new_view_self (F : Type) (dim : Nat) (s : List (Nat × F)) :
    new_view F dim (s.map Prod.fst) (s.map Prod.snd)
      = if strictlySorted (s.map Prod.fst) ∧
            ∀ i ∈ s.map Prod.fst, i < dim then some s
        else none := by
  unfold new_view
  by_cases h1 : strictlySorted (s.map Prod.fst) ∧
      ∀ i ∈ s.map Prod.fst, i < dim
  · rw [if_pos ⟨h1.1, h1.2, by simp⟩, if_pos h1]
    rw [List.zip_map']
    simp
  · rw [if_neg fun hc => h1 ⟨hc.1, hc.2.1⟩, if_neg h1]

/-- Insertion keeps the multiset of entries. -/
lemma insertByFst_perm {F : Type} (a : Nat × F) :
    ∀ l : List (Nat × F), List.Perm (insertByFst a l) (a :: l) := by
  intro l
  induction l with
  | nil => exact List.Perm.refl _
  | cons b t ih =>
      unfold insertByFst
      by_cases hle : a.1 ≤ b.1
      · rw [if_pos hle]
      · rw [if_neg hle]
        exact (ih.cons b).trans (List.Perm.swap a b t)

/-- Sorting keeps the multiset of entries. -/
lemma sortByFst_perm {F : Type} :
    ∀ l : List (Nat × F), List.Perm (sortByFst l) l := by
  intro l
  induction l with
  | nil => exact List.Perm.refl _
  | cons a t ih =>
      unfold sortByFst
      exact (insertByFst_perm a (sortByFst t)).trans (ih.cons a)

/-- Decomposition of a successful `rows_to_csmat` run: the main rows come
from a successful `mapOption` over the input rows, and the tail is the
padding of empty rows. -/
lemma rows_to_csmat_some_elim {F : Type} (p r : Nat)
    (v : List (List Nat × List F)) (m : CsMat F)
    (h : rows_to_csmat F p r v = some m) :
    ∃ mainRows,
      mapOption (fun row =>
          (shiftRow p r row).bind fun shifted =>
            new_view F (ceil_pow2 v.length) (shifted.map Prod.fst)
              (shifted.map Prod.snd)) v = some mainRows ∧
      m.cols = ceil_pow2 v.length ∧
      m.rows = mainRows ++
        List.replicate (ceil_pow2 v.length - v.length) [] := by
  simp only [rows_to_csmat] at h
  have hfe : (fun _ : Nat => new_view F (ceil_pow2 v.length) [] [])
      = fun _ : Nat => some ([] : List (Nat × F)) :=
    funext fun _ => new_view_nil F _
  rw [hfe, mapOption_const] at h
  simp only [List.length_range] at h
  cases hmain : mapOption (fun row =>
      (shiftRow p r row).bind fun shifted =>
        new_view F (ceil_pow2 v.length) (shifted.map Prod.fst)
          (shifted.map Prod.snd)) v with
  | none => rw [hmain] at h; cases h
  | some mainRows =>
      rw [hmain] at h
      simp only [Option.some_bind, Option.map_some'] at h
      cases h
      exact ⟨mainRows, rfl, rfl, rfl⟩

/-- C3: whenever `rows_to_csmat` returns a matrix for an input of length
`L`, the matrix has `ceil_pow2 L` rows and columns, its first `L` rows are
the re-indexed, sorted input rows in caller order, and its remaining rows
are empty. -/
theorem rows_to_csmat_shape (F : Type) (p r : Nat)
    (v : List (List Nat × List F)) (m : CsMat F)
    (h : rows_to_csmat F p r v = some m) :
    m.rows.length = ceil_pow2 v.length ∧
    m.cols = ceil_pow2 v.length ∧
    (∀ j (hj : j < v.length), m.rows[j]? = shiftRow p r (v.get ⟨j, hj⟩)) ∧
    (∀ j : Nat, v.length ≤ j → j < m.rows.length → m.rows[j]? = some []) := by
  obtain ⟨mainRows, hmain, hcols, hrows⟩ := rows_to_csmat_some_elim p r v m h
  have hlen : mainRows.length = v.length := mapOption_some_length _ v mainRows hmain
  have hL : v.length ≤ ceil_pow2 v.length := ceil_pow2_ge v.length
  refine ⟨?_, hcols, ?_, ?_⟩
  · rw [hrows]
    simp only [List.length_append, List.length_replicate, hlen]
    omega
  · intro j hj
    have hjm : j < mainRows.length := by omega
    rw [hrows, List.getElem?_append_left hjm]
    have hget := mapOption_getElem? _ v mainRows hmain j
    rw [List.getElem?_eq_getElem hj] at hget
    have hvj : v[j] = v.get ⟨j, hj⟩ := rfl
    rw [hvj] at hget
    simp only [Option.some_bind] at hget
    cases hs : shiftRow p r (v.get ⟨j, hj⟩) with
    | none =>
        rw [hs] at hget
        simp only [Option.none_bind] at hget
        rw [List.getElem?_eq_getElem hjm] at hget
        cases hget
    | some s =>
        rw [hs] at hget
        simp only [Option.some_bind] at hget
        rw [new_view_self] at hget
        by_cases hc : strictlySorted (s.map Prod.fst) ∧
            ∀ i ∈ s.map Prod.fst, i < ceil_pow2 v.length
        · rw [if_pos hc] at hget
          rw [hget]
        · rw [if_neg hc] at hget
          rw [List.getElem?_eq_getElem hjm] at hget
          cases hget
  · intro j hj1 hj2
    rw [hrows] at hj2 ⊢
    rw [List.getElem?_append_right (by omega), List.getElem?_replicate]
    simp only [List.length_append, List.length_replicate, hlen] at hj2
    rw [if_pos (by omega)]

/-- Five concrete input rows over the integers, used to instantiate the
matrix-builder theorems. -/
def exampleRows : List (List Nat × List Int) :=
  [([0, 3], [2, 5]), ([1], [7]), ([], []), ([4, 3], [1, 9]), ([5], [3])]

/-- The matrix `rows_to_csmat` builds from `exampleRows` with
`public_inputs = 3` and ratio 4. -/
def exampleMatrix : CsMat Int where
  cols := 8
  rows := [[(0, 2), (1, 5)], [(4, 7)], [], [(1, 9), (2, 1)], [(3, 3)],
    [], [], []]

/-- Witness for C3: the five `exampleRows` yield an 8 by 8 matrix whose
first five rows are the re-indexed sorted inputs and whose last three rows
are empty. -/
theorem rows_to_csmat_shape_witness :
    exampleMatrix.rows.length = ceil_pow2 exampleRows.length ∧
    exampleMatrix.cols = ceil_pow2 exampleRows.length ∧
    (∀ j (hj : j < exampleRows.length),
      exampleMatrix.rows[j]? = shiftRow 3 4 (exampleRows.get ⟨j, hj⟩)) ∧
    (∀ j : Nat, exampleRows.length ≤ j → j < exampleMatrix.rows.length →
      exampleMatrix.rows[j]? = some []) :=
  rows_to_csmat_shape Int 3 4 exampleRows exampleMatrix (by decide)

/-- C6: in every matrix `rows_to_csmat` returns, the column indices within
each row are strictly increasing. -/
theorem rows_to_csmat_rows_sorted (F : Type) (p r : Nat)
    (v : List (List Nat × List F)) (m : CsMat F)
    (h : rows_to_csmat F p r v = some m) :
    ∀ row ∈ m.rows, List.Chain' (· < ·) (row.map Prod.fst) := by
  obtain ⟨mainRows, hmain, hcols, hrows⟩ := rows_to_csmat_some_elim p r v m h
  intro row hrow
  rw [hrows] at hrow
  rcases List.mem_append.mp hrow with hmem | hmem
  · obtain ⟨a, ha, hfa⟩ := mapOption_mem _ v mainRows hmain row hmem
    cases hs : shiftRow p r a with
    | none => rw [hs] at hfa; simp at hfa
    | some s =>
        rw [hs] at hfa
        simp only [Option.some_bind] at hfa
        rw [new_view_self] at hfa
        by_cases hc : strictlySorted (s.map Prod.fst) ∧
            ∀ i ∈ s.map Prod.fst, i < ceil_pow2 v.length
        · rw [if_pos hc] at hfa
          cases hfa
          exact (strictlySorted_iff_chain' _).mp hc.1
        · rw [if_neg hc] at hfa
          cases hfa
  · have hempty : row = [] := List.eq_of_mem_replicate hmem
    rw [hempty]
    simp

/-- Witness for C6 at the concrete five-row example: the row whose entries
were sorted during construction has strictly increasing columns. -/
theorem rows_to_csmat_rows_sorted_witness :
    List.Chain' (· < ·) (([(1, 9), (2, 1)] : List (Nat × Int)).map Prod.fst) :=
  rows_to_csmat_rows_sorted Int 3 4 exampleRows exampleMatrix (by decide)
    [(1, 9), (2, 1)] (by decide)

/-- C5: if any input row still contains two entries with the same domain
position after re-indexing, `rows_to_csmat` aborts with `none` (the panic
on a failed `new_view`) instead of returning a matrix. -/
theorem rows_to_csmat_duplicate_aborts (F : Type) (p r : Nat)
    (v : List (List Nat × List F)) (row : List Nat × List F)
    (hrow : row ∈ v) (shifted : List (Nat × F))
    (hre : mapOption (fun pr =>
        (index_to_witness_position p r pr.1).map fun w => (w, pr.2))
      (row.1.zip row.2) = some shifted)
    (hdup : ¬ (shifted.map Prod.fst).Nodup) :
    rows_to_csmat F p r v = none := by
  have hshift : shiftRow p r row = some (sortByFst shifted) := by
    unfold shiftRow
    rw [hre]
    rfl
  have hproc : (shiftRow p r row).bind (fun shifted =>
      new_view F (ceil_pow2 v.length) (shifted.map Prod.fst)
        (shifted.map Prod.snd)) = none := by
    rw [hshift]
    simp only [Option.some_bind]
    rw [new_view_self, if_neg]
    intro hc
    have hchain := (strictlySorted_iff_chain' _).mp hc.1
    have hpw : ((sortByFst shifted).map Prod.fst).Pairwise (· < ·) :=
      List.chain'_iff_pairwise.mp hchain
    have hnd : ((sortByFst shifted).map Prod.fst).Nodup :=
      hpw.imp fun hlt => Nat.ne_of_lt hlt
    have hperm : List.Perm ((sortByFst shifted).map Prod.fst)
        (shifted.map Prod.fst) := (sortByFst_perm shifted).map Prod.fst
    exact hdup (hperm.nodup_iff.mp hnd)
  simp only [rows_to_csmat]
  rw [mapOption_eq_none_of_mem _ row v hrow hproc]
  rfl

/-- Witness for C5: a single row using flat index 1 twice is rejected. -/
theorem rows_to_csmat_duplicate_aborts_witness :
    rows_to_csmat Int 3 4 [([1, 1], [5, 7])] = none :=
  rows_to_csmat_duplicate_aborts Int 3 4 [([1, 1], [5, 7])] ([1, 1], [5, 7])
    (by decide) [(4, 5), (4, 7)] (by decide) (by decide)

/-- C10: `ceil_pow2` is total and maps 0 to 1, so `rows_to_csmat` applied
to an empty row list returns a 1 by 1 matrix holding exactly one empty row
instead of failing. -/
theorem ceil_pow2_zero_empty_matrix :
    ceil_pow2 0 = 1 ∧
    ∀ (F : Type) (p r : Nat),
      rows_to_csmat F p r [] = some { cols := 1, rows := [[]] } := by
  refine ⟨rfl, fun F p r => ?_⟩
  rfl

end SnarkyBn382
